import Mathlib

/-!
Verification of the virtual-fs repository (cmd/virtual-fs/main.go).

The Go program keeps a tree of directories and files linked by pointers
(each node holds a parent pointer and directories hold an ordered slice of
children) together with a working-directory pointer.  We embed the tree as
an inductive type and represent a node by the list of child indices leading
to it from the root, so the parent link of a node at path p is the node at
p.dropLast and the working directory is a path into the tree.
-/

/-- Tree of blobs: a file holds its content bytes, a directory holds the
ordered list of its children (insertion order preserved, as in the Go
slice).  Mirrors the file and directory structs of main.go; the parent
pointer is represented implicitly by the position in the tree. -/
inductive Blob where
  | file (name : String) (content : List Nat)
  | dir (name : String) (children : List Blob)

/-- Name accessor, as in the Go Name() methods. -/
def Blob.name : Blob → String
  | .file n _ => n
  | .dir n _ => n

/-- Whether the blob is a Directory (the Go type assertion child.(Directory)). -/
def Blob.isDir : Blob → Bool
  | .dir _ _ => true
  | .file _ _ => false

/-- Child of a blob at index i, when the blob is a directory and the index
is in range. -/
def childAt : Blob → Nat → Option Blob
  | .dir _ cs, i => cs[i]?
  | .file _ _, _ => none

/-- Node of the tree addressed by a path of child indices. -/
def blobAt : Blob → List Nat → Option Blob
  | b, [] => some b
  | b, i :: is =>
    match childAt b i with
    | some c => blobAt c is
    | none => none

/-- Replace the element at index i of a list by applying g to it. -/
def updateAt : List Blob → Nat → (Blob → Blob) → List Blob
  | [], _, _ => []
  | c :: rest, 0, g => g c :: rest
  | c :: rest, i + 1, g => c :: updateAt rest i g

/-- Append a child to the children of the directory at path p, modelling
Directory.Add invoked on the node wd points to. -/
def addChildAt : Blob → List Nat → Blob → Blob
  | .file n ct, _, _ => .file n ct
  | .dir n cs, [], c => .dir n (cs ++ [c])
  | .dir n cs, i :: is, c => .dir n (updateAt cs i (fun b => addChildAt b is c))

/-- Index of the first child (in insertion order) that is a Directory whose
name equals s; models the scan in the default branch of ChangeDirectory. -/
def findChildDir : List Blob → String → Option Nat
  | [], _ => none
  | c :: rest, s =>
    if c.isDir && c.name == s then some 0
    else (findChildDir rest s).map (· + 1)

/-- Segment loop of ChangeDirectory: starting from the traversal pointer
cur (a path into tree), consume the split path parts.  A "." segment is
skipped, a ".." segment jumps to the parent when one exists (at the root
[].dropLast = [] is a no-op, matching the nil-parent check in main.go), and
any other segment moves to the first Directory child with that name, or
fails for the whole path. -/
def resolveParts (tree : Blob) : List Nat → List String → Option (List Nat)
  | cur, [] => some cur
  | cur, part :: rest =>
    if part = "." then resolveParts tree cur rest
    else if part = ".." then resolveParts tree cur.dropLast rest
    else
      match blobAt tree cur with
      | some (.dir _ cs) =>
        match findChildDir cs part with
        | some i => resolveParts tree (cur ++ [i]) rest
        | none => none
      | _ => none

/-- Go strings.Trim(s, "/"): remove all leading and trailing slash
characters. -/
def goTrim (s : String) : String :=
  (((s.data.dropWhile (· == '/')).reverse.dropWhile (· == '/')).reverse).asString

/-- Go strings.Split(s, "/") at character level: split on every slash,
keeping empty fields; the empty input yields one empty field. -/
def splitSlashChars : List Char → List (List Char)
  | [] => [[]]
  | c :: rest =>
    if c = '/' then [] :: splitSlashChars rest
    else
      match splitSlashChars rest with
      | [] => [[c]]
      | h :: t => (c :: h) :: t

/-- Go strings.Split(s, "/") on strings. -/
def goSplitSlash (s : String) : List String :=
  (splitSlashChars s.data).map List.asString

/-- Go strings.HasPrefix(s, t). -/
def goHasPrefix (s t : String) : Bool :=
  s.data.take t.data.length == t.data

/-- The filesystem state of main.go: the root tree and the working
directory, the latter as the index path of the directory wd points to. -/
structure filesystem where
  tree : Blob
  wd : List Nat

/-- NewRoot() of main.go: a directory with empty name and no children. -/
def NewRoot : Blob := .dir "" []

/-- NewFilesystem() of main.go: root tree with wd = root. -/
def NewFilesystem : filesystem := { tree := NewRoot, wd := [] }

/-- NewFile of main.go: always succeeds, no validation of the name. -/
def NewFile (name : String) (content : List Nat) : Except String Blob :=
  .ok (.file name content)

/-- NewDirectory of main.go: always succeeds, no validation. -/
def NewDirectory (name : String) (children : List Blob) : Except String Blob :=
  .ok (.dir name children)

/-- CreateFile of main.go: build the file and append it to wd's children. -/
def filesystem.CreateFile (f : filesystem) (name : String) (content : List Nat) :
    Except String filesystem :=
  match NewFile name content with
  | .error e => .error e
  | .ok fl => .ok { f with tree := addChildAt f.tree f.wd fl }

/-- CreateDirectory of main.go: build the directory with the given initial
children and append it to wd's children. -/
def filesystem.CreateDirectory (f : filesystem) (name : String) (children : List Blob) :
    Except String filesystem :=
  match NewDirectory name children with
  | .error e => .error e
  | .ok d => .ok { f with tree := addChildAt f.tree f.wd d }

/-- ChangeDirectory of main.go.  The Unit-or-error component is the Go
return value; the filesystem component is the state after the call (the Go
method mutates f.wd in place and only assigns it on full success). -/
def filesystem.ChangeDirectory (f : filesystem) (path : String) :
    Except String Unit × filesystem :=
  if path = "/" then (.ok (), { f with wd := [] })
  else
    let wd0 : List Nat := if goHasPrefix path "/" then [] else f.wd
    let parts := goSplitSlash (goTrim path)
    match resolveParts f.tree wd0 parts with
    | some wd1 => (.ok (), { f with wd := wd1 })
    | none => (.error ("the directory '" ++ path ++ "' does not exist"), f)

/-- Name of the node at path p, empty when the path dangles. -/
def nameAt (t : Blob) (p : List Nat) : String :=
  match blobAt t p with
  | some b => b.name
  | none => ""

/-- Loop of CurrentDirectory: the Go loop walks from wd upward through the
parent pointers, prepending name + "/" each iteration and stopping after
the root.  Here rp is the reversed remaining path, so the iteration order
(deepest node first) becomes structural recursion. -/
def currentDirectoryAuxR (t : Blob) : List Nat → String → String
  | [], acc => nameAt t [] ++ "/" ++ acc
  | i :: rp, acc => currentDirectoryAuxR t rp (nameAt t (i :: rp).reverse ++ "/" ++ acc)

/-- CurrentDirectory of main.go, returning the string it prints. -/
def filesystem.CurrentDirectory (f : filesystem) : String :=
  currentDirectoryAuxR f.tree f.wd.reverse ""

/-- One output row of List: the TYPE, SIZE and NAME columns. -/
structure Row where
  kind : String
  size : String
  name : String
deriving DecidableEq

mutual

/-- printChilds closure of List in main.go, returning the rows it writes. -/
def printChilds : Blob → Bool → String → List Row
  | .file _ _, _, _ => []
  | .dir _ cs, recursive, pre => printChildsList cs recursive pre

/-- Row emission for a list of children, in insertion order: a file row
shows its size in kilobytes by integer division, a directory row shows "-"
and, when recursive, is followed by the rows of its subtree with the
name-prefixing of main.go. -/
def printChildsList : List Blob → Bool → String → List Row
  | [], _, _ => []
  | b :: rest, recursive, pre =>
    (match b with
     | .file fn content =>
       [⟨"file", toString (content.length / 1024) ++ "kb",
         if pre ≠ "" then pre ++ "/" ++ fn else fn⟩]
     | .dir dn dcs =>
       ⟨"dir", "-", if pre ≠ "" then pre ++ "/" ++ dn else dn⟩ ::
         (if recursive then
            printChilds (.dir dn dcs) recursive
              (if pre ≠ "" then pre ++ "/" ++ dn else dn)
          else []))
    ++ printChildsList rest recursive pre

end

/-- List of main.go as the rows printed below the header, for the
directory wd points to. -/
def filesystem.listRows (f : filesystem) (recursive : Bool) : List Row :=
  match blobAt f.tree f.wd with
  | some d => printChilds d recursive ""
  | none => []

/-- The operations a caller can invoke on the filesystem (the command
surface of main.go). -/
inductive Op where
  | createFile (name : String) (content : List Nat)
  | createDirectory (name : String) (children : List Blob)
  | changeDirectory (path : String)
  | currentDirectory
  | list (recursive : Bool)

/-- State after one call: creation and navigation update the state, a
failed call and the read-only operations leave it unchanged. -/
def applyOp (f : filesystem) (op : Op) : filesystem :=
  match op with
  | .createFile n c =>
    match f.CreateFile n c with
    | .ok f2 => f2
    | .error _ => f
  | .createDirectory n cs =>
    match f.CreateDirectory n cs with
    | .ok f2 => f2
    | .error _ => f
  | .changeDirectory p => (f.ChangeDirectory p).2
  | .currentDirectory => f
  | .list _ => f

/-- State reached from NewFilesystem by a sequence of calls. -/
def runOps (ops : List Op) : filesystem :=
  ops.foldl applyOp NewFilesystem

/-- Whether an optional blob is a directory. -/
def isDirB : Option Blob → Bool
  | some (.dir _ _) => true
  | _ => false

/-- The path p addresses a directory of the tree t. -/
def validDirPath (t : Blob) (p : List Nat) : Bool :=
  isDirB (blobAt t p)

/-! Basic facts about the helper functions. -/

theorem String.data_append_eq (a b : String) : (a ++ b).data = a.data ++ b.data := rfl

theorem List.asString_data (s : String) : s.data.asString = s := rfl

theorem mem_of_getElem_opt {l : List Blob} {i : Nat} {a : Blob}
    (h : l[i]? = some a) : a ∈ l := by
  obtain ⟨hlt, he⟩ := List.getElem?_eq_some_iff.mp h
  exact he ▸ List.getElem_mem hlt

theorem findChildDir_eq_some {cs : List Blob} {s : String} {i : Nat}
    (h : findChildDir cs s = some i) : ∃ ds, cs[i]? = some (.dir s ds) := by
  induction cs generalizing i with
  | nil => simp [findChildDir] at h
  | cons c rest ih =>
    by_cases hc : (c.isDir && c.name == s) = true
    · rw [findChildDir, if_pos hc] at h
      obtain ⟨hd, hn⟩ := Bool.and_eq_true_iff.mp hc
      cases h
      cases c with
      | file fn ct => simp [Blob.isDir] at hd
      | dir dn dcs =>
        refine ⟨dcs, ?_⟩
        have : dn = s := by simpa [Blob.name] using hn
        simp [this]
    · rw [findChildDir, if_neg hc] at h
      cases hrec : findChildDir rest s with
      | none => rw [hrec] at h; simp at h
      | some j =>
        rw [hrec] at h
        simp at h
        obtain ⟨ds, hds⟩ := ih hrec
        subst h
        exact ⟨ds, by simpa using hds⟩

theorem findChildDir_min {cs : List Blob} {s : String} {i : Nat}
    (h : findChildDir cs s = some i) :
    ∀ j b, j < i → cs[j]? = some b → (b.isDir && b.name == s) = false := by
  induction cs generalizing i with
  | nil => simp [findChildDir] at h
  | cons c rest ih =>
    intro j b hj hb
    by_cases hc : (c.isDir && c.name == s) = true
    · rw [findChildDir, if_pos hc] at h
      cases h
      omega
    · rw [findChildDir, if_neg hc] at h
      cases hrec : findChildDir rest s with
      | none => rw [hrec] at h; simp at h
      | some i2 =>
        rw [hrec] at h
        simp at h
        subst h
        cases j with
        | zero =>
          simp only [List.getElem?_cons_zero] at hb
          cases hb
          exact Bool.eq_false_iff.mpr hc
        | succ j2 =>
          simp only [List.getElem?_cons_succ] at hb
          exact ih hrec j2 b (by omega) hb

theorem findChildDir_eq_none {cs : List Blob} {s : String}
    (h : ∀ b ∈ cs, (b.isDir && b.name == s) = false) :
    findChildDir cs s = none := by
  induction cs with
  | nil => rfl
  | cons c rest ih =>
    have hc := h c (by simp)
    rw [findChildDir, if_neg (by simp [hc])]
    rw [ih (fun b hb => h b (by simp [hb]))]
    rfl

theorem blobAt_append (q : List Nat) (r : List Nat) (t : Blob) :
    blobAt t (q ++ r) = (blobAt t q).bind (fun b => blobAt b r) := by
  induction q generalizing t with
  | nil => simp [blobAt]
  | cons i is ih =>
    simp only [List.cons_append, blobAt]
    cases childAt t i with
    | none => simp
    | some c => simpa using ih c

theorem updateAt_getElem_self {l : List Blob} {i : Nat} {c : Blob}
    (g : Blob → Blob) (h : l[i]? = some c) : (updateAt l i g)[i]? = some (g c) := by
  induction l generalizing i with
  | nil => simp at h
  | cons a rest ih =>
    cases i with
    | zero =>
      simp only [List.getElem?_cons_zero] at h
      cases h
      simp [updateAt]
    | succ j =>
      simp only [List.getElem?_cons_succ] at h
      simpa [updateAt] using ih h

theorem updateAt_getElem_other {l : List Blob} {i j : Nat}
    (g : Blob → Blob) (h : j ≠ i) : (updateAt l i g)[j]? = l[j]? := by
  induction l generalizing i j with
  | nil => simp [updateAt]
  | cons a rest ih =>
    cases i with
    | zero =>
      cases j with
      | zero => omega
      | succ j2 => simp [updateAt]
    | succ i2 =>
      cases j with
      | zero => simp [updateAt]
      | succ j2 => simpa [updateAt] using ih (i := i2) (j := j2) (by omega)

theorem blobAt_addChildAt_self {t : Blob} {p : List Nat} {n : String}
    {cs : List Blob} (c : Blob) (h : blobAt t p = some (.dir n cs)) :
    blobAt (addChildAt t p c) p = some (.dir n (cs ++ [c])) := by
  induction p generalizing t with
  | nil =>
    simp only [blobAt] at h
    cases h
    rfl
  | cons i is ih =>
    cases t with
    | file fn ct => simp [blobAt, childAt] at h
    | dir dn dcs =>
      simp only [blobAt, childAt] at h
      cases hc : dcs[i]? with
      | none => rw [hc] at h; simp at h
      | some c0 =>
        rw [hc] at h
        simp only at h
        simp only [addChildAt, blobAt, childAt]
        rw [updateAt_getElem_self (fun b => addChildAt b is c) hc]
        exact ih h

theorem isDirB_eq_true_iff {o : Option Blob} :
    isDirB o = true ↔ ∃ n cs, o = some (.dir n cs) := by
  cases o with
  | none => simp [isDirB]
  | some b =>
    cases b with
    | file fn ct => simp [isDirB]
    | dir dn dcs => simp [isDirB]

theorem blobAt_snoc_dir {t : Blob} {q : List Nat} {i : Nat} {b : Blob}
    (h : blobAt t (q ++ [i]) = some b) :
    ∃ n cs, blobAt t q = some (.dir n cs) ∧ cs[i]? = some b := by
  rw [blobAt_append] at h
  cases hq : blobAt t q with
  | none => rw [hq] at h; simp at h
  | some m =>
    rw [hq] at h
    dsimp only [Option.bind] at h
    cases m with
    | file fn ct => simp [blobAt, childAt] at h
    | dir dn dcs =>
      refine ⟨dn, dcs, rfl, ?_⟩
      simp only [blobAt, childAt] at h
      cases hc : dcs[i]? with
      | none => rw [hc] at h; simp at h
      | some c => rw [hc] at h; simpa [blobAt] using h

theorem validDirPath_dropLast {t : Blob} {p : List Nat}
    (h : validDirPath t p = true) : validDirPath t p.dropLast = true := by
  induction p using List.reverseRecOn with
  | nil => exact h
  | append_singleton q i _ =>
    rw [List.dropLast_concat]
    obtain ⟨n, cs, hb⟩ := isDirB_eq_true_iff.mp h
    obtain ⟨n2, cs2, hq, _⟩ := blobAt_snoc_dir hb
    simp [validDirPath, hq, isDirB]

theorem validDirPath_nil_of {t : Blob} {p : List Nat}
    (h : validDirPath t p = true) : validDirPath t [] = true := by
  cases p with
  | nil => exact h
  | cons i is =>
    cases t with
    | file fn ct => simp [validDirPath, blobAt, childAt, isDirB] at h
    | dir dn dcs => simp [validDirPath, blobAt, isDirB]

theorem resolveParts_valid {t : Blob} (parts : List String) :
    ∀ cur wd1, validDirPath t cur = true →
      resolveParts t cur parts = some wd1 → validDirPath t wd1 = true := by
  induction parts with
  | nil =>
    intro cur wd1 hv h
    simp only [resolveParts] at h
    cases h
    exact hv
  | cons part rest ih =>
    intro cur wd1 hv h
    by_cases h1 : part = "."
    · rw [resolveParts, if_pos h1] at h
      exact ih cur wd1 hv h
    · by_cases h2 : part = ".."
      · rw [resolveParts, if_neg h1, if_pos h2] at h
        exact ih cur.dropLast wd1 (validDirPath_dropLast hv) h
      · rw [resolveParts, if_neg h1, if_neg h2] at h
        obtain ⟨n, cs, hb⟩ := isDirB_eq_true_iff.mp hv
        rw [hb] at h
        dsimp only at h
        cases hf : findChildDir cs part with
        | none => rw [hf] at h; simp at h
        | some i =>
          rw [hf] at h
          obtain ⟨ds, hds⟩ := findChildDir_eq_some hf
          refine ih (cur ++ [i]) wd1 ?_ h
          rw [validDirPath, blobAt_append, hb]
          simp [blobAt, childAt, hds, isDirB]

theorem validDirPath_addChildAt {t : Blob} {p : List Nat} (c : Blob)
    (h : validDirPath t p = true) : validDirPath (addChildAt t p c) p = true := by
  obtain ⟨n, cs, hb⟩ := isDirB_eq_true_iff.mp h
  rw [validDirPath, blobAt_addChildAt_self c hb]
  rfl

theorem applyOp_valid {f : filesystem} (op : Op)
    (h : validDirPath f.tree f.wd = true) :
    validDirPath (applyOp f op).tree (applyOp f op).wd = true := by
  cases op with
  | createFile n c =>
    simpa [applyOp, filesystem.CreateFile, NewFile] using
      validDirPath_addChildAt (.file n c) h
  | createDirectory n cs =>
    simpa [applyOp, filesystem.CreateDirectory, NewDirectory] using
      validDirPath_addChildAt (.dir n cs) h
  | changeDirectory p =>
    simp only [applyOp, filesystem.ChangeDirectory]
    by_cases h1 : p = "/"
    · simpa [h1] using validDirPath_nil_of h
    · rw [if_neg h1]
      cases hr : resolveParts f.tree
          (if goHasPrefix p "/" then [] else f.wd) (goSplitSlash (goTrim p)) with
      | none => simpa using h
      | some wd1 =>
        simp only
        have hstart : validDirPath f.tree
            (if goHasPrefix p "/" then [] else f.wd) = true := by
          by_cases h2 : goHasPrefix p "/" = true
          · simpa [h2] using validDirPath_nil_of h
          · simpa [h2] using h
        simpa using resolveParts_valid _ _ _ hstart hr
  | currentDirectory => exact h
  | list r => exact h

theorem runOps_valid_aux (ops : List Op) :
    ∀ f : filesystem, validDirPath f.tree f.wd = true →
      validDirPath (ops.foldl applyOp f).tree (ops.foldl applyOp f).wd = true := by
  induction ops with
  | nil => intro f h; exact h
  | cons op rest ih =>
    intro f h
    exact ih (applyOp f op) (applyOp_valid op h)

/-! Claim theorems. -/

/-- C1: failure atomicity of navigation: whenever ChangeDirectory returns
an error, the working directory after the call equals the working
directory before the call. -/
theorem changeDirectory_failure_atomicity (f : filesystem) (path : String)
    (e : String) (h : (f.ChangeDirectory path).1 = .error e) :
    (f.ChangeDirectory path).2.wd = f.wd := by
  rw [filesystem.ChangeDirectory] at h ⊢
  by_cases h1 : path = "/"
  · simp [h1] at h
  · rw [if_neg h1] at h ⊢
    dsimp only at h ⊢
    cases hr : resolveParts f.tree
        (if goHasPrefix path "/" then [] else f.wd) (goSplitSlash (goTrim path)) with
    | none => rfl
    | some wd1 => rw [hr] at h; simp at h

/-- Witness for C1 at a concrete failing call. -/
theorem changeDirectory_failure_atomicity_witness :
    (NewFilesystem.ChangeDirectory "x").1 =
      .error "the directory 'x' does not exist" ∧
    (NewFilesystem.ChangeDirectory "x").2.wd = NewFilesystem.wd :=
  ⟨rfl, changeDirectory_failure_atomicity NewFilesystem "x"
    "the directory 'x' does not exist" rfl⟩

/-- C4: in every state reachable from NewFilesystem by any sequence of
calls, wd addresses a Directory of the tree (never a File, never
dangling). -/
theorem runOps_wd_valid_directory (ops : List Op) :
    validDirPath (runOps ops).tree (runOps ops).wd = true :=
  runOps_valid_aux ops NewFilesystem rfl

/-- C6: a ".." segment moves the traversal pointer to its parent (the
path without its last index), which at the root is a no-op, and cd ".."
invoked at the root succeeds and keeps wd at the root. -/
theorem changeDirectory_dotdot_parent :
    (∀ (t : Blob) (cur : List Nat) (rest : List String),
       resolveParts t cur (".." :: rest) = resolveParts t cur.dropLast rest) ∧
    (∀ f : filesystem, f.wd = [] → f.ChangeDirectory ".." = (.ok (), f)) := by
  constructor
  · intro t cur rest
    rw [resolveParts, if_neg (by decide), if_pos rfl]
  · intro f h
    obtain ⟨t, wd⟩ := f
    simp only at h
    subst h
    rfl

/-- Witness for C6 at the initial state. -/
theorem changeDirectory_dotdot_parent_witness :
    NewFilesystem.ChangeDirectory ".." = (.ok (), NewFilesystem) :=
  changeDirectory_dotdot_parent.2 NewFilesystem rfl

theorem tree_after_changeDirectory (f : filesystem) (path : String) :
    (f.ChangeDirectory path).2.tree = f.tree := by
  rw [filesystem.ChangeDirectory]
  by_cases h1 : path = "/"
  · rw [if_pos h1]
  · rw [if_neg h1]
    dsimp only
    cases resolveParts f.tree
        (if goHasPrefix path "/" then [] else f.wd) (goSplitSlash (goTrim path)) with
    | none => rfl
    | some wd1 => rfl

/-- C10: ChangeDirectory never modifies the tree: after any call,
successful or failed, the tree is identical to before (so every node's
name, children sequence, and derived parent link are unchanged); only wd
may change. -/
theorem changeDirectory_frame (f : filesystem) (path : String) :
    (f.ChangeDirectory path).2.tree = f.tree :=
  tree_after_changeDirectory f path

/-- C2: a segment other than "." and ".." resolves to the first child, in
insertion order, that is a Directory with that name (files never match);
when no child matches, resolution fails for the whole path no matter what
the later segments are, and ChangeDirectory returns the not-found error
with the state unchanged. -/
theorem changeDirectory_segment_resolution :
    (∀ (t : Blob) (cur : List Nat) (s : String) (rest : List String)
       (n : String) (cs : List Blob),
       s ≠ "." → s ≠ ".." → blobAt t cur = some (.dir n cs) →
       (∀ i, findChildDir cs s = some i →
          (∃ ds, cs[i]? = some (.dir s ds)) ∧
          (∀ j b, j < i → cs[j]? = some b → ¬(b.isDir = true ∧ b.name = s)) ∧
          resolveParts t cur (s :: rest) = resolveParts t (cur ++ [i]) rest) ∧
       ((∀ b ∈ cs, b.isDir = true → ¬b.name = s) →
          resolveParts t cur (s :: rest) = none)) ∧
    (∀ (f : filesystem) (path : String), path ≠ "/" →
       resolveParts f.tree (if goHasPrefix path "/" then [] else f.wd)
         (goSplitSlash (goTrim path)) = none →
       f.ChangeDirectory path =
         (.error ("the directory '" ++ path ++ "' does not exist"), f)) := by
  constructor
  · intro t cur s rest n cs hdot hdotdot hb
    constructor
    · intro i hi
      refine ⟨findChildDir_eq_some hi, ?_, ?_⟩
      · intro j b hj hjb hand
        have hx := findChildDir_min hi j b hj hjb
        rw [hand.1] at hx
        simp only [Bool.true_and] at hx
        have hy : b.name ≠ s := by simpa using hx
        exact hy hand.2
      · rw [resolveParts, if_neg hdot, if_neg hdotdot, hb]
        dsimp only
        rw [hi]
    · intro hnone
      have hfn : findChildDir cs s = none := by
        apply findChildDir_eq_none
        intro b hbmem
        by_cases hd : b.isDir = true
        · have := hnone b hbmem hd
          simp [hd, this]
        · simp [Bool.eq_false_iff.mpr hd]
      rw [resolveParts, if_neg hdot, if_neg hdotdot, hb]
      dsimp only
      rw [hfn]
  · intro f path hp hr
    rw [filesystem.ChangeDirectory, if_neg hp]
    dsimp only
    rw [hr]

/-- Witness for C2: the segment "a" skips the file child named "a" and
resolves to the directory child at index 1. -/
theorem changeDirectory_segment_resolution_witness :
    resolveParts (Blob.dir "" [Blob.file "a" [], Blob.dir "a" []]) [] ["a"] =
      resolveParts (Blob.dir "" [Blob.file "a" [], Blob.dir "a" []]) ([] ++ [1]) [] :=
  ((changeDirectory_segment_resolution.1
      (Blob.dir "" [Blob.file "a" [], Blob.dir "a" []]) [] "a" []
      "" [Blob.file "a" [], Blob.dir "a" []]
      (by decide) (by decide) rfl).1 1 rfl).2.2

theorem printChildsList_cons (c : Blob) (l : List Blob) (r : Bool) (pre : String) :
    printChildsList (c :: l) r pre =
      printChildsList [c] r pre ++ printChildsList l r pre := by
  cases c with
  | file fn ct => simp [printChildsList]
  | dir dn dcs => simp [printChildsList]

theorem printChildsList_append (a b : List Blob) (r : Bool) (pre : String) :
    printChildsList (a ++ b) r pre =
      printChildsList a r pre ++ printChildsList b r pre := by
  induction a with
  | nil => rfl
  | cons c rest ih =>
    rw [List.cons_append, printChildsList_cons, ih, printChildsList_cons c rest,
      List.append_assoc]

/-- C8: CreateFile(n, c) followed immediately by List(false) emits a file
row named n whose displayed size is the byte length divided by 1024, so
any file under 1024 bytes reports "0kb". -/
theorem createFile_listed_with_truncated_size (f : filesystem) (n : String)
    (c : List Nat) (dn : String) (cs : List Blob) (f2 : filesystem)
    (hn : n ≠ "") (hwd : blobAt f.tree f.wd = some (.dir dn cs))
    (hc : f.CreateFile n c = .ok f2) :
    (⟨"file", toString (c.length / 1024) ++ "kb", n⟩ : Row) ∈ f2.listRows false ∧
    (c.length < 1024 → toString (c.length / 1024) ++ "kb" = "0kb") := by
  constructor
  · have hf2 : f2 = { f with tree := addChildAt f.tree f.wd (.file n c) } := by
      rw [filesystem.CreateFile, NewFile] at hc
      exact (Except.ok.injEq _ _).mp hc.symm |>.symm ▸ rfl
    subst hf2
    rw [filesystem.listRows]
    simp only
    rw [blobAt_addChildAt_self (.file n c) hwd]
    dsimp only
    rw [printChilds, printChildsList_append]
    apply List.mem_append_right
    simp [printChildsList]
  · intro hlt
    rw [Nat.div_eq_of_lt hlt]
    rfl

/-- Witness for C8: a 100-byte file named "test" shows as a "0kb" file
row. -/
theorem createFile_listed_with_truncated_size_witness :
    (⟨"file", "0kb", "test"⟩ : Row) ∈
      ({ tree := Blob.dir "" [Blob.file "test" (List.replicate 100 0)], wd := [] }
        : filesystem).listRows false ∧
    ((List.replicate 100 (0 : Nat)).length < 1024 →
      toString ((List.replicate 100 (0 : Nat)).length / 1024) ++ "kb" = "0kb") :=
  createFile_listed_with_truncated_size NewFilesystem "test"
    (List.replicate 100 0) "" [] _ (by decide) rfl rfl

/-- C9 counterexample: after creating a directory with the empty name at
the root, the all-slash path "//" resolves to that directory instead of
failing: ChangeDirectory returns success and moves wd. -/
theorem changeDirectory_all_slash_succeeds_on_empty_named_dir :
    ((runOps [Op.createDirectory "" []]).ChangeDirectory "//").1 = .ok () ∧
    ((runOps [Op.createDirectory "" []]).ChangeDirectory "//").2.wd = [0] :=
  ⟨rfl, rfl⟩

/-- C9 (amended): a path whose stripped remainder is empty but which is
not exactly "/" splits into the single empty segment, and provided the
starting directory has no Directory child whose name is the empty string,
ChangeDirectory returns the not-found error and leaves the state
unchanged. -/
theorem changeDirectory_all_slash_fails (f : filesystem) (path : String)
    (hp : path ≠ "/") (ht : goTrim path = "")
    (hempty : ∀ n cs,
      blobAt f.tree (if goHasPrefix path "/" then [] else f.wd) =
        some (.dir n cs) → findChildDir cs "" = none) :
    goSplitSlash (goTrim path) = [""] ∧
    f.ChangeDirectory path =
      (.error ("the directory '" ++ path ++ "' does not exist"), f) := by
  have hsplit : goSplitSlash (goTrim path) = [""] := by rw [ht]; rfl
  refine ⟨hsplit, ?_⟩
  have hres : resolveParts f.tree
      (if goHasPrefix path "/" then [] else f.wd) [""] = none := by
    rw [resolveParts, if_neg (by decide), if_neg (by decide)]
    cases hb : blobAt f.tree (if goHasPrefix path "/" then [] else f.wd) with
    | none => rfl
    | some b =>
      cases b with
      | file fn ct => rfl
      | dir n cs =>
        dsimp only
        rw [hempty n cs hb]
  rw [filesystem.ChangeDirectory, if_neg hp]
  dsimp only
  rw [hsplit, hres]

/-- Witness for C9 (amended) at the initial state and path "//". -/
theorem changeDirectory_all_slash_fails_witness :
    goSplitSlash (goTrim "//") = [""] ∧
    NewFilesystem.ChangeDirectory "//" =
      (.error ("the directory '" ++ "//" ++ "' does not exist"), NewFilesystem) :=
  changeDirectory_all_slash_fails NewFilesystem "//" (by decide) rfl
    (by
      intro n cs h
      have h2 : Blob.dir "" [] = Blob.dir n cs := Option.some.inj h
      cases h2
      rfl)

mutual

/-- Whether every blob of the tree, the root of the tree included, has a
non-empty name. -/
def noEmptyNames : Blob → Bool
  | .file n _ => n != ""
  | .dir n cs => n != "" && noEmptyNamesList cs

/-- noEmptyNames for every tree of a list. -/
def noEmptyNamesList : List Blob → Bool
  | [] => true
  | b :: rest => noEmptyNames b && noEmptyNamesList rest

end

/-- An operation whose created entities all carry non-empty names: the
precondition the spec places on CreateFile and CreateDirectory inputs. -/
def goodOp : Op → Bool
  | .createFile n _ => n != ""
  | .createDirectory n kids => n != "" && noEmptyNamesList kids
  | _ => true

/-- The tree is rooted at an empty-named directory all of whose subtrees
have non-empty names. -/
def rootGood (t : Blob) : Prop :=
  ∃ cs, t = .dir "" cs ∧ noEmptyNamesList cs = true

theorem noEmptyNamesList_append {a b : List Blob} (ha : noEmptyNamesList a = true)
    (hb : noEmptyNamesList b = true) : noEmptyNamesList (a ++ b) = true := by
  induction a with
  | nil => exact hb
  | cons c rest ih =>
    rw [noEmptyNamesList, Bool.and_eq_true] at ha
    rw [List.cons_append, noEmptyNamesList, Bool.and_eq_true]
    exact ⟨ha.1, ih ha.2⟩

theorem noEmptyNamesList_updateAt {l : List Blob} {i : Nat} {g : Blob → Blob}
    (hg : ∀ x, noEmptyNames x = true → noEmptyNames (g x) = true)
    (hl : noEmptyNamesList l = true) : noEmptyNamesList (updateAt l i g) = true := by
  induction l generalizing i with
  | nil => exact hl
  | cons c rest ih =>
    rw [noEmptyNamesList, Bool.and_eq_true] at hl
    cases i with
    | zero =>
      rw [updateAt, noEmptyNamesList, Bool.and_eq_true]
      exact ⟨hg c hl.1, hl.2⟩
    | succ j =>
      rw [updateAt, noEmptyNamesList, Bool.and_eq_true]
      exact ⟨hl.1, ih hl.2⟩

theorem noEmptyNames_addChildAt (p : List Nat) {b c : Blob}
    (hb : noEmptyNames b = true) (hc : noEmptyNames c = true) :
    noEmptyNames (addChildAt b p c) = true := by
  induction p generalizing b with
  | nil =>
    cases b with
    | file fn ct => exact hb
    | dir dn dcs =>
      rw [noEmptyNames, Bool.and_eq_true] at hb
      rw [addChildAt, noEmptyNames, Bool.and_eq_true]
      exact ⟨hb.1, noEmptyNamesList_append hb.2 (by simpa [noEmptyNamesList] using hc)⟩
  | cons i is ih =>
    cases b with
    | file fn ct => exact hb
    | dir dn dcs =>
      rw [noEmptyNames, Bool.and_eq_true] at hb
      rw [addChildAt, noEmptyNames, Bool.and_eq_true]
      exact ⟨hb.1, noEmptyNamesList_updateAt (fun x hx => ih hx) hb.2⟩

theorem rootGood_addChildAt {t : Blob} (p : List Nat) {c : Blob}
    (ht : rootGood t) (hc : noEmptyNames c = true) :
    rootGood (addChildAt t p c) := by
  obtain ⟨cs, rfl, hcs⟩ := ht
  cases p with
  | nil =>
    exact ⟨cs ++ [c], rfl,
      noEmptyNamesList_append hcs (by simpa [noEmptyNamesList] using hc)⟩
  | cons i is =>
    exact ⟨updateAt cs i (fun b => addChildAt b is c), rfl,
      noEmptyNamesList_updateAt (fun x hx => noEmptyNames_addChildAt is hx hc) hcs⟩

theorem noEmptyNamesList_mem {l : List Blob} {x : Blob}
    (hl : noEmptyNamesList l = true) (hx : x ∈ l) : noEmptyNames x = true := by
  induction l with
  | nil => cases hx
  | cons c rest ih =>
    rw [noEmptyNamesList, Bool.and_eq_true] at hl
    cases hx with
    | head => exact hl.1
    | tail _ h => exact ih hl.2 h

theorem noEmptyNames_name {b : Blob} (h : noEmptyNames b = true) : b.name ≠ "" := by
  cases b with
  | file fn ct => simpa [noEmptyNames, Blob.name] using h
  | dir dn dcs =>
    rw [noEmptyNames, Bool.and_eq_true] at h
    simpa [Blob.name] using h.1

theorem noEmptyNames_blobAt (p : List Nat) {c b : Blob}
    (hc : noEmptyNames c = true) (h : blobAt c p = some b) : b.name ≠ "" := by
  induction p generalizing c with
  | nil =>
    rw [blobAt] at h
    cases h
    exact noEmptyNames_name hc
  | cons i is ih =>
    cases c with
    | file fn ct => simp [blobAt, childAt] at h
    | dir dn dcs =>
      rw [noEmptyNames, Bool.and_eq_true] at hc
      rw [blobAt, childAt] at h
      cases hci : dcs[i]? with
      | none => rw [hci] at h; simp at h
      | some c2 =>
        rw [hci] at h
        dsimp only at h
        exact ih (noEmptyNamesList_mem hc.2 (mem_of_getElem_opt hci)) h

theorem applyOp_rootGood {f : filesystem} {op : Op} (hop : goodOp op = true)
    (ht : rootGood f.tree) : rootGood (applyOp f op).tree := by
  cases op with
  | createFile n c =>
    simp only [applyOp, filesystem.CreateFile, NewFile]
    exact rootGood_addChildAt f.wd ht (by simpa [noEmptyNames, goodOp] using hop)
  | createDirectory n kids =>
    simp only [applyOp, filesystem.CreateDirectory, NewDirectory]
    rw [goodOp, Bool.and_eq_true] at hop
    exact rootGood_addChildAt f.wd ht
      (by rw [noEmptyNames, Bool.and_eq_true]; exact hop)
  | changeDirectory p =>
    simpa only [applyOp, tree_after_changeDirectory] using ht
  | currentDirectory => exact ht
  | list r => exact ht

theorem runOps_rootGood_aux (ops : List Op) :
    ∀ f : filesystem, ops.all goodOp = true → rootGood f.tree →
      rootGood (ops.foldl applyOp f).tree := by
  induction ops with
  | nil => intro f _ ht; exact ht
  | cons op rest ih =>
    intro f hall ht
    rw [List.all_cons, Bool.and_eq_true] at hall
    exact ih (applyOp f op) hall.2 (applyOp_rootGood hall.1 ht)

/-- C5 counterexample: the code performs no name validation, so
CreateFile("") succeeds and the reachable state after it contains a
non-root File whose Name() is the empty string. -/
theorem createFile_empty_name_reachable :
    ¬ (∀ (p : List Nat) (b : Blob),
        blobAt (runOps [Op.createFile "" []]).tree p = some b →
        b.name = "" → p = []) := by
  intro h
  have := h [0] (.file "" []) rfl rfl
  simp at this

/-- C5 (amended): provided every CreateFile and CreateDirectory call in
the sequence is given a non-empty name (and, for CreateDirectory, initial
children whose trees carry non-empty names), every reachable state has
the empty name only at the root: the root is named "" and every other
node's Name() is non-empty. -/
theorem runOps_empty_name_only_root (ops : List Op)
    (h : ops.all goodOp = true) :
    (runOps ops).tree.name = "" ∧
    ∀ (p : List Nat) (b : Blob), blobAt (runOps ops).tree p = some b →
      p ≠ [] → b.name ≠ "" := by
  have hg : rootGood (runOps ops).tree :=
    runOps_rootGood_aux ops NewFilesystem h ⟨[], rfl, rfl⟩
  obtain ⟨cs, heq, hcs⟩ := hg
  constructor
  · rw [heq]; rfl
  · intro p b hb hp
    cases p with
    | nil => exact absurd rfl hp
    | cons i is =>
      rw [heq, blobAt, childAt] at hb
      cases hci : cs[i]? with
      | none => rw [hci] at hb; simp at hb
      | some c =>
        rw [hci] at hb
        dsimp only at hb
        exact noEmptyNames_blobAt is
          (noEmptyNamesList_mem hcs (mem_of_getElem_opt hci)) hb

/-- Witness for C5 (amended) on a concrete well-named call sequence. -/
theorem runOps_empty_name_only_root_witness :
    ([Op.createFile "x" [], Op.createDirectory "d" []].all goodOp = true) ∧
    ((runOps [Op.createFile "x" [], Op.createDirectory "d" []]).tree.name = "" ∧
     ∀ (p : List Nat) (b : Blob),
       blobAt (runOps [Op.createFile "x" [], Op.createDirectory "d" []]).tree p =
         some b → p ≠ [] → b.name ≠ "") :=
  ⟨rfl, runOps_empty_name_only_root [Op.createFile "x" [], Op.createDirectory "d" []] rfl⟩

/-- Names along a path: the name of each node entered, root excluded. -/
def pathNames : Blob → List Nat → Option (List String)
  | _, [] => some []
  | .file _ _, _ :: _ => none
  | .dir _ cs, i :: is =>
    match cs[i]? with
    | some c => (pathNames c is).map (fun ns => c.name :: ns)
    | none => none

/-- Concatenation of segment names, each followed by a slash, as in the
path strings CurrentDirectory produces. -/
def joinSlash : List String → String
  | [] => ""
  | n :: rest => n ++ "/" ++ joinSlash rest

theorem joinSlash_append (a b : List String) :
    joinSlash (a ++ b) = joinSlash a ++ joinSlash b := by
  induction a with
  | nil => rfl
  | cons n rest ih =>
    rw [List.cons_append, joinSlash, ih, joinSlash]
    simp [String.append_assoc]

theorem pathNames_snoc {t : Blob} {i : Nat} {ns : List String} (q : List Nat)
    (h : pathNames t (q ++ [i]) = some ns) :
    ∃ ns2 c, pathNames t q = some ns2 ∧ blobAt t (q ++ [i]) = some c ∧
      ns = ns2 ++ [c.name] := by
  induction q generalizing t ns with
  | nil =>
    cases t with
    | file fn ct => simp [pathNames] at h
    | dir dn cs =>
      rw [List.nil_append, pathNames] at h
      cases hci : cs[i]? with
      | none => rw [hci] at h; simp at h
      | some c =>
        rw [hci] at h
        simp only [pathNames, Option.map_some'] at h
        cases h
        exact ⟨[], c, rfl, by simp [blobAt, childAt, hci], rfl⟩
  | cons j q2 ih =>
    cases t with
    | file fn ct => simp [pathNames] at h
    | dir dn cs =>
      rw [List.cons_append, pathNames] at h
      cases hcj : cs[j]? with
      | none => rw [hcj] at h; simp at h
      | some c =>
        rw [hcj] at h
        dsimp only at h
        cases hp : pathNames c (q2 ++ [i]) with
        | none => rw [hp] at h; simp at h
        | some ns3 =>
          rw [hp] at h
          simp only [Option.map_some'] at h
          obtain ⟨ns4, cb, h1, h2, h3⟩ := ih hp
          cases h
          refine ⟨c.name :: ns4, cb, ?_, ?_, ?_⟩
          · rw [pathNames, hcj]
            dsimp only
            rw [h1]
            rfl
          · rw [List.cons_append, blobAt, childAt, hcj]
            exact h2
          · rw [h3, List.cons_append]

theorem nameAt_eq {t : Blob} {p : List Nat} {b : Blob}
    (h : blobAt t p = some b) : nameAt t p = b.name := by
  rw [nameAt, h]

theorem currentDirectoryAuxR_render {t : Blob} (rp : List Nat) :
    ∀ (ns : List String) (acc : String), pathNames t rp.reverse = some ns →
      t.name = "" → currentDirectoryAuxR t rp acc = "/" ++ joinSlash ns ++ acc := by
  induction rp with
  | nil =>
    intro ns acc h hroot
    have hns : ns = [] := by
      rw [List.reverse_nil, pathNames] at h
      exact (Option.some.inj h).symm
    subst hns
    show nameAt t [] ++ "/" ++ acc = "/" ++ joinSlash [] ++ acc
    rw [nameAt_eq (show blobAt t [] = some t from rfl), hroot]
    rfl
  | cons i rp2 ih =>
    intro ns acc h hroot
    rw [List.reverse_cons] at h
    obtain ⟨ns2, c, h1, h2, h3⟩ := pathNames_snoc rp2.reverse h
    rw [currentDirectoryAuxR]
    rw [show nameAt t (i :: rp2).reverse = c.name by
      rw [List.reverse_cons]; exact nameAt_eq h2]
    rw [ih ns2 (c.name ++ "/" ++ acc) h1 hroot, h3, joinSlash_append]
    simp [joinSlash, String.append_assoc, String.append_empty]

/-- C7: CurrentDirectory renders the working directory as slash followed
by each segment name followed by a slash; at the root it renders "/"; and
the operation mutates nothing. -/
theorem currentDirectory_renders_path :
    (∀ (f : filesystem) (ns : List String), f.tree.name = "" →
       pathNames f.tree f.wd = some ns →
       f.CurrentDirectory = "/" ++ joinSlash ns) ∧
    (∀ f : filesystem, f.tree.name = "" → f.wd = [] →
       f.CurrentDirectory = "/") ∧
    (∀ f : filesystem, applyOp f .currentDirectory = f) := by
  refine ⟨?_, ?_, fun f => rfl⟩
  · intro f ns hroot h
    rw [filesystem.CurrentDirectory,
      currentDirectoryAuxR_render f.wd.reverse ns ""
        (by rw [List.reverse_reverse]; exact h) hroot]
    simp [String.append_empty]
  · intro f hroot hwd
    rw [filesystem.CurrentDirectory, hwd]
    show nameAt f.tree [] ++ "/" ++ "" = "/"
    rw [nameAt_eq (show blobAt f.tree [] = some f.tree from rfl), hroot]
    rfl

/-- Witness for C7 at a two-level concrete tree. -/
theorem currentDirectory_renders_path_witness :
    ({ tree := Blob.dir "" [Blob.dir "quz" [Blob.dir "foo" []]], wd := [0, 0] }
      : filesystem).CurrentDirectory = "/" ++ joinSlash ["quz", "foo"] :=
  currentDirectory_renders_path.1
    { tree := Blob.dir "" [Blob.dir "quz" [Blob.dir "foo" []]], wd := [0, 0] }
    ["quz", "foo"] rfl rfl

/-- A segment name that survives a render-then-resolve round trip
untouched: non-empty, slash-free, and not one of the special segments. -/
def goodName (s : String) : Bool :=
  s != "" && s.data.all (fun c => c != '/') && s != "." && s != ".."

/-- The path addresses a chain of directories, each with a good name, and
each being the first directory child of its parent that carries its name
(so that first-match resolution finds exactly this chain again). -/
def canonicalFrom : Blob → List Nat → Bool
  | _, [] => true
  | .file _ _, _ :: _ => false
  | .dir _ cs, i :: is =>
    match cs[i]? with
    | some c =>
      c.isDir && goodName c.name && (findChildDir cs c.name == some i) &&
        canonicalFrom c is
    | none => false

theorem goodName_spec {s : String} (h : goodName s = true) :
    s ≠ "" ∧ (∀ c ∈ s.data, c ≠ '/') ∧ s ≠ "." ∧ s ≠ ".." := by
  rw [goodName, Bool.and_eq_true, Bool.and_eq_true, Bool.and_eq_true] at h
  obtain ⟨⟨⟨h1, h2⟩, h3⟩, h4⟩ := h
  refine ⟨by simpa using h1, ?_, by simpa using h3, by simpa using h4⟩
  intro c hc
  have := List.all_eq_true.mp h2 c hc
  simpa using this

theorem canonicalFrom_pathNames {b : Blob} (p : List Nat)
    (h : canonicalFrom b p = true) :
    ∃ ns, pathNames b p = some ns ∧ ∀ s ∈ ns, goodName s = true := by
  induction p generalizing b with
  | nil =>
    refine ⟨[], ?_, by simp⟩
    cases b with
    | file fn ct => rfl
    | dir dn cs => rfl
  | cons i is ih =>
    cases b with
    | file fn ct => simp [canonicalFrom] at h
    | dir dn cs =>
      rw [canonicalFrom] at h
      cases hci : cs[i]? with
      | none => rw [hci] at h; simp at h
      | some c =>
        rw [hci] at h
        dsimp only at h
        rw [Bool.and_eq_true, Bool.and_eq_true, Bool.and_eq_true] at h
        obtain ⟨⟨⟨_, hg⟩, _⟩, hrec⟩ := h
        obtain ⟨ns2, hns2, hgood⟩ := ih hrec
        refine ⟨c.name :: ns2, ?_, ?_⟩
        · rw [pathNames, hci]
          dsimp only
          rw [hns2]
          rfl
        · intro s hs
          cases hs with
          | head => exact hg
          | tail _ hmem => exact hgood s hmem

theorem resolveParts_shift {t c : Blob} (parts : List String)
    (hno : ∀ s ∈ parts, s ≠ "..") :
    ∀ cur p : List Nat, blobAt t cur = some c →
      resolveParts t (cur ++ p) parts =
        (resolveParts c p parts).map (fun q => cur ++ q) := by
  induction parts with
  | nil => intro cur p hb; rfl
  | cons s rest ih =>
    intro cur p hb
    have hs : s ≠ ".." := hno s (by simp)
    have hrest : ∀ x ∈ rest, x ≠ ".." := fun x hx => hno x (by simp [hx])
    by_cases hdot : s = "."
    · rw [resolveParts, if_pos hdot, resolveParts, if_pos hdot]
      exact ih hrest cur p hb
    · rw [resolveParts, if_neg hdot, if_neg hs,
        resolveParts, if_neg hdot, if_neg hs]
      have hba : blobAt t (cur ++ p) = blobAt c p := by
        rw [blobAt_append, hb]
        rfl
      rw [hba]
      cases hbp : blobAt c p with
      | none => rfl
      | some m =>
        cases m with
        | file fn ct => rfl
        | dir dn dcs =>
          dsimp only
          cases hf : findChildDir dcs s with
          | none => rfl
          | some i =>
            dsimp only
            rw [List.append_assoc]
            exact ih hrest cur (p ++ [i]) hb

theorem canonicalFrom_resolve {b : Blob} (p : List Nat) :
    ∀ ns : List String, canonicalFrom b p = true → pathNames b p = some ns →
      resolveParts b [] ns = some p := by
  induction p generalizing b with
  | nil =>
    intro ns _ hn
    cases b with
    | file fn ct =>
      cases Option.some.inj hn
      rfl
    | dir dn cs =>
      cases Option.some.inj hn
      rfl
  | cons i is ih =>
    intro ns hc hn
    cases b with
    | file fn ct => simp [canonicalFrom] at hc
    | dir dn cs =>
      rw [canonicalFrom] at hc
      cases hci : cs[i]? with
      | none => rw [hci] at hc; simp at hc
      | some c =>
        rw [hci] at hc
        dsimp only at hc
        rw [Bool.and_eq_true, Bool.and_eq_true, Bool.and_eq_true] at hc
        obtain ⟨⟨⟨_, hg⟩, hfirst⟩, hrec⟩ := hc
        have hf : findChildDir cs c.name = some i := eq_of_beq hfirst
        rw [pathNames, hci] at hn
        dsimp only at hn
        cases hns2 : pathNames c is with
        | none => rw [hns2] at hn; simp at hn
        | some ns2 =>
          rw [hns2] at hn
          simp only [Option.map_some'] at hn
          cases hn
          obtain ⟨hne, _, hd1, hd2⟩ := goodName_spec hg
          rw [resolveParts, if_neg hd1, if_neg hd2]
          dsimp only [blobAt]
          rw [hf]
          dsimp only
          obtain ⟨ns3, hns3, hgood3⟩ := canonicalFrom_pathNames is hrec
          have hns23 : ns3 = ns2 := Option.some.inj (hns3 ▸ hns2)
          subst hns23
          have hshift := resolveParts_shift ns3
            (fun x hx => (goodName_spec (hgood3 x hx)).2.2.2) [i] []
            (show blobAt (Blob.dir dn cs) [i] = some c by
              simp [blobAt, childAt, hci])
          rw [show ([i] : List Nat) ++ ([] : List Nat) = [] ++ [i] from rfl] at hshift
          rw [hshift, ih ns3 hrec hns3]
          rfl

theorem splitSlashChars_no_slash {l : List Char}
    (h : l.all (fun c => c != '/') = true) : splitSlashChars l = [l] := by
  induction l with
  | nil => rfl
  | cons c rest ih =>
    rw [List.all_cons, Bool.and_eq_true] at h
    have hc : c ≠ '/' := by simpa using h.1
    rw [splitSlashChars, if_neg hc, ih h.2]

theorem splitSlashChars_append_slash {l : List Char} (m : List Char)
    (h : l.all (fun c => c != '/') = true) :
    splitSlashChars (l ++ '/' :: m) = l :: splitSlashChars m := by
  induction l with
  | nil => rw [List.nil_append, splitSlashChars, if_pos rfl]
  | cons c rest ih =>
    rw [List.all_cons, Bool.and_eq_true] at h
    have hc : c ≠ '/' := by simpa using h.1
    rw [List.cons_append, splitSlashChars, if_neg hc, ih h.2]

/-- The rendered path without its leading and trailing slash: segment
names joined by single slashes. -/
def midJoin : List String → String
  | [] => ""
  | [n] => n
  | n :: rest => n ++ "/" ++ midJoin rest

theorem slash_data : ("/" : String).data = ['/'] := rfl

theorem string_eq_empty_of_data {s : String} (h : s.data = []) : s = "" := by
  cases s with
  | mk l =>
    simp only at h
    subst h
    rfl

theorem joinSlash_data_cons (n : String) (rest : List String) :
    (joinSlash (n :: rest)).data = n.data ++ '/' :: (joinSlash rest).data := by
  rw [joinSlash, String.data_append_eq, String.data_append_eq, slash_data,
    List.append_assoc, List.singleton_append]

theorem midJoin_data_cons (n n2 : String) (rest2 : List String) :
    (midJoin (n :: n2 :: rest2)).data =
      n.data ++ '/' :: (midJoin (n2 :: rest2)).data := by
  rw [show midJoin (n :: n2 :: rest2) = n ++ "/" ++ midJoin (n2 :: rest2) from rfl,
    String.data_append_eq, String.data_append_eq, slash_data,
    List.append_assoc, List.singleton_append]

theorem joinSlash_eq_midJoin_slash (ns : List String) (h : ns ≠ []) :
    (joinSlash ns).data = (midJoin ns).data ++ ['/'] := by
  induction ns with
  | nil => exact absurd rfl h
  | cons n rest ih =>
    cases rest with
    | nil =>
      rw [joinSlash_data_cons]
      rfl
    | cons n2 rest2 =>
      rw [joinSlash_data_cons, ih (by simp), midJoin_data_cons,
        List.append_assoc, List.cons_append]

theorem midJoin_reverse_head (ns : List String) (h : ns ≠ [])
    (hgood : ∀ s ∈ ns, goodName s = true) :
    ∃ c rest2, (midJoin ns).data.reverse = c :: rest2 ∧ c ≠ '/' := by
  induction ns with
  | nil => exact absurd rfl h
  | cons n rest ih =>
    cases rest with
    | nil =>
      have hg := goodName_spec (hgood n (by simp))
      have hne : n.data ≠ [] := by
        intro hd
        exact hg.1 (string_eq_empty_of_data hd)
      cases hrev : n.data.reverse with
      | nil => exact absurd (by simpa using congrArg List.reverse hrev) hne
      | cons c r2 =>
        refine ⟨c, r2, hrev, ?_⟩
        have hcmem : c ∈ n.data := by
          have h3 : c ∈ n.data.reverse := by rw [hrev]; simp
          simpa using h3
        exact hg.2.1 c hcmem
    | cons n2 rest2 =>
      obtain ⟨c, r2, hr, hc⟩ := ih (by simp) (fun s hs => hgood s (by simp [hs]))
      refine ⟨c, r2 ++ '/' :: n.data.reverse, ?_, hc⟩
      rw [midJoin_data_cons, List.reverse_append, List.reverse_cons, hr]
      simp [List.append_assoc]

theorem goTrim_render (ns : List String) (h : ns ≠ [])
    (hgood : ∀ s ∈ ns, goodName s = true) :
    goTrim ("/" ++ joinSlash ns) = midJoin ns := by
  cases ns with
  | nil => exact absurd rfl h
  | cons n rest =>
    have hgn := goodName_spec (hgood n (by simp))
    cases hnd : n.data with
    | nil =>
      exact absurd (string_eq_empty_of_data hnd) hgn.1
    | cons c0 nd =>
      have hc0 : c0 ≠ '/' := hgn.2.1 c0 (by rw [hnd]; simp)
      rw [goTrim]
      show (((('/' :: (joinSlash (n :: rest)).data).dropWhile
          (· == '/')).reverse.dropWhile (· == '/')).reverse).asString =
        midJoin (n :: rest)
      rw [List.dropWhile_cons, if_pos (show ('/' == '/') = true from rfl),
        joinSlash_data_cons, hnd, List.cons_append, List.dropWhile_cons,
        if_neg (by simpa using hc0), ← List.cons_append, ← hnd,
        ← joinSlash_data_cons, joinSlash_eq_midJoin_slash (n :: rest) h,
        List.reverse_append]
      rw [show (['/'] : List Char).reverse = ['/'] from rfl,
        List.singleton_append, List.dropWhile_cons,
        if_pos (show ('/' == '/') = true from rfl)]
      obtain ⟨c1, r2, hrev, hc1⟩ :=
        midJoin_reverse_head (n :: rest) h hgood
      rw [hrev, List.dropWhile_cons, if_neg (by simpa using hc1), ← hrev,
        List.reverse_reverse]
      rfl

theorem splitSlashChars_midJoin (ns : List String) (h : ns ≠ [])
    (hgood : ∀ s ∈ ns, goodName s = true) :
    splitSlashChars (midJoin ns).data = ns.map (fun s => s.data) := by
  induction ns with
  | nil => exact absurd rfl h
  | cons n rest ih =>
    have hall : n.data.all (fun c => c != '/') = true := by
      have hg := (goodName_spec (hgood n (by simp))).2.1
      rw [List.all_eq_true]
      intro c hc
      simpa using hg c hc
    cases rest with
    | nil =>
      rw [show midJoin [n] = n from rfl, splitSlashChars_no_slash hall]
      rfl
    | cons n2 rest2 =>
      rw [midJoin_data_cons, splitSlashChars_append_slash _ hall,
        ih (by simp) (fun s hs => hgood s (by simp [hs]))]
      rfl

theorem goSplitSlash_midJoin (ns : List String) (h : ns ≠ [])
    (hgood : ∀ s ∈ ns, goodName s = true) :
    goSplitSlash (midJoin ns) = ns := by
  rw [goSplitSlash, splitSlashChars_midJoin ns h hgood, List.map_map]
  exact List.map_id ns

theorem goHasPrefix_slash (s : String) : goHasPrefix ("/" ++ s) "/" = true := rfl

theorem render_ne_slash (n : String) (rest : List String) :
    ("/" ++ joinSlash (n :: rest)) ≠ "/" := by
  intro heq
  have hd := congrArg String.data heq
  rw [show ("/" ++ joinSlash (n :: rest)).data =
    '/' :: (joinSlash (n :: rest)).data from rfl] at hd
  have h2 : (joinSlash (n :: rest)).data = [] := by
    simpa using hd
  rw [joinSlash_data_cons] at h2
  simp at h2

/-- C3 counterexample: with two sibling directories both named "a"
(reachable via two mkdir calls), the second one is a reachable Directory,
yet ChangeDirectory of its CurrentDirectory-rendered path resolves
first-match to the first sibling, so wd does not return to it. -/
theorem roundTrip_duplicate_names_counterexample :
    blobAt (runOps [Op.createDirectory "a" [], Op.createDirectory "a" []]).tree [1] =
      some (.dir "a" []) ∧
    ((runOps [Op.createDirectory "a" [], Op.createDirectory "a" []]).ChangeDirectory
      (({ runOps [Op.createDirectory "a" [], Op.createDirectory "a" []] with
          wd := [1] } : filesystem).CurrentDirectory)).1 = .ok () ∧
    ((runOps [Op.createDirectory "a" [], Op.createDirectory "a" []]).ChangeDirectory
      (({ runOps [Op.createDirectory "a" [], Op.createDirectory "a" []] with
          wd := [1] } : filesystem).CurrentDirectory)).2.wd = [0] ∧
    ([0] : List Nat) ≠ [1] :=
  ⟨rfl, rfl, rfl, by decide⟩

/-- C3 (amended): for every reachable Directory d whose index path is
canonical — every node on it is the first directory child carrying its
name, and the names are non-empty, slash-free and none of "." and ".." —
rendering d's path as CurrentDirectory does and then calling
ChangeDirectory on that exact string succeeds and sets wd to d. -/
theorem roundTrip_canonical (f : filesystem) (p : List Nat)
    (hroot : f.tree.name = "") (hc : canonicalFrom f.tree p = true) :
    f.ChangeDirectory (({ f with wd := p } : filesystem).CurrentDirectory) =
      (.ok (), { f with wd := p }) := by
  obtain ⟨ns, hns, hgood⟩ := canonicalFrom_pathNames p hc
  have hcd : ({ f with wd := p } : filesystem).CurrentDirectory =
      "/" ++ joinSlash ns := by
    rw [filesystem.CurrentDirectory]
    rw [currentDirectoryAuxR_render p.reverse ns ""
      (by rw [List.reverse_reverse]; exact hns) hroot]
    simp [String.append_empty]
  rw [hcd]
  cases ns with
  | nil =>
    have hp : p = [] := by
      cases p with
      | nil => rfl
      | cons i is =>
        exfalso
        cases ht : f.tree with
        | file fn ct => rw [ht] at hns; simp [pathNames] at hns
        | dir dn cs =>
          rw [ht, pathNames] at hns
          cases hci : cs[i]? with
          | none => rw [hci] at hns; simp at hns
          | some c =>
            rw [hci] at hns
            dsimp only at hns
            cases hpn : pathNames c is with
            | none => rw [hpn] at hns; simp at hns
            | some ns2 => rw [hpn] at hns; simp at hns
    subst hp
    rw [show ("/" ++ joinSlash ([] : List String) : String) = "/" from rfl,
      filesystem.ChangeDirectory, if_pos rfl]
  | cons n rest =>
    have hne := render_ne_slash n rest
    rw [filesystem.ChangeDirectory, if_neg hne]
    dsimp only
    rw [goHasPrefix_slash (joinSlash (n :: rest)),
      if_pos (show (true : Bool) = true from rfl),
      goTrim_render (n :: rest) (by simp) hgood,
      goSplitSlash_midJoin (n :: rest) (by simp) hgood,
      canonicalFrom_resolve p (n :: rest) hc hns]

/-- Witness for C3 (amended) on a concrete two-level tree. -/
theorem roundTrip_canonical_witness :
    ({ tree := Blob.dir "" [Blob.dir "quz" [Blob.dir "foo" []]], wd := [] }
        : filesystem).ChangeDirectory
      (({ tree := Blob.dir "" [Blob.dir "quz" [Blob.dir "foo" []]], wd := [0, 0] }
        : filesystem).CurrentDirectory) =
    (.ok (),
      { tree := Blob.dir "" [Blob.dir "quz" [Blob.dir "foo" []]], wd := [0, 0] }) :=
  roundTrip_canonical
    { tree := Blob.dir "" [Blob.dir "quz" [Blob.dir "foo" []]], wd := [] }
    [0, 0] rfl rfl
